import Mathlib

/-!
Verification of the r2 extension facade (`qiling/extensions/r2/r2.py`):
the typed record model, the permission-string conversion, the analysis
gate, the cached flags view, and the address-resolution algorithm
(`bisect_right` + one-left step) with its cross-reference queries.
-/

set_option maxHeartbeats 1000000

namespace R2Py

/-- Unicorn protection constants used by `Section.perm2uc`. -/
def UC_PROT_NONE : Nat := 0

def UC_PROT_READ : Nat := 1

def UC_PROT_WRITE : Nat := 2

def UC_PROT_EXEC : Nat := 4

/-- `Flag` dataclass: `offset: int`, `name: str = ''`, `size: int = 0`. -/
structure Flag where
  offset : Nat
  name : String := ""
  size : Nat := 0
  deriving DecidableEq, Repr

/-- `Flag.__lt__`: flags compare by `offset`. -/
def Flag.lt (a b : Flag) : Bool :=
  a.offset < b.offset

/-- `Xref` dataclass: `name`, `fromaddr` (renamed from the reserved word
`from`), `refname`, `addr`, `type`. -/
structure Xref where
  name : String
  fromaddr : Nat
  refname : String
  addr : Nat
  type : String
  deriving DecidableEq, Repr

/-- Placeholder flag used to make list indexing total in the model; every
index actually read is proved in range, so this value is never observed. -/
def dflt : Flag :=
  ⟨0, "", 0⟩

namespace PySem

/-- Python list indexing `a[i]` with negative-index wraparound:
`a[i]` is `a[len(a) + i]` for `-len(a) <= i < 0`; out-of-range
indices raise `IndexError`, modelled as `none`. -/
def pyGet (a : List Flag) (i : Int) : Option Flag :=
  let j : Int := if i < 0 then i + a.length else i
  if j < 0 then none else a[j.toNat]?

/-- `bisect.bisect_right(a, x, lo, hi)` from the Python standard library:
binary search over `mid = (lo + hi) / 2` for the right insertion point of
`x`, comparing with the element type's `__lt__` (for `Flag`, comparison by
`offset`). -/
def bisect_right (a : List Flag) (x : Flag) (lo hi : Nat) : Nat :=
  if _h : lo < hi then
    if Flag.lt x (a.getD ((lo + hi) / 2) dflt) then
      bisect_right a x lo ((lo + hi) / 2)
    else
      bisect_right a x ((lo + hi) / 2 + 1) hi
  else
    lo
termination_by hi - lo
decreasing_by
  · omega
  · omega

end PySem

/-- `Section.perm2uc`'s per-character dictionary lookup `dic.get(ch, 0)`:
`'r'`, `'w'`, `'x'` map to the unicorn read/write/execute constants, any
other character to `0`. -/
def permDic (ch : Char) : Nat :=
  if ch = 'r' then UC_PROT_READ
  else if ch = 'w' then UC_PROT_WRITE
  else if ch = 'x' then UC_PROT_EXEC
  else 0

namespace Section

/-- `Section.perm2uc`: convert a permission string such as `"-rwx"` to a
unicorn constant, starting from `UC_PROT_NONE` and adding (`perm += ...`)
the dictionary value of each character. -/
def perm2uc (permstr : List Char) : Nat :=
  permstr.foldl (fun perm ch => perm + permDic ch) UC_PROT_NONE

end Section

/-- `R2Data.__init__(**kwargs)`: iterate over the keyword arguments and
`setattr` only those whose key is among the dataclass's declared field
names; other keys are dropped. The attribute store is modelled as an
association list built left to right. -/
def R2Data.init {α : Type} (names : List String) (kwargs : List (String × α)) :
    List (String × α) :=
  kwargs.foldl (fun attrs kv => if kv.1 ∈ names then attrs ++ [kv] else attrs) []

/-- A JSON dictionary from the engine's `fj` reply, as far as `Flag`
construction consumes it (`Flag(**dic)` keeps `offset`, `name`, `size`). -/
structure FlagDict where
  offset : Nat
  name : String := ""
  size : Nat := 0
  deriving DecidableEq, Repr

namespace R2

/-- `Flag(**dic)` for one engine dictionary. -/
def mkFlag (dic : FlagDict) : Flag :=
  ⟨dic.offset, dic.name, dic.size⟩

/-- `R2.flags`: `[Flag(**dic) for dic in self._cmdj("fj")]` — the cached
flags view is built in the order the engine returned the records, with no
sorting step. -/
def flags (fj : List FlagDict) : List Flag :=
  fj.map mkFlag

/-- `R2.at(addr)`: `idx = bisect.bisect_right(self.flags, Flag(offset=addr))`
then `flag = self.flags[idx - 1]` (Python indexing, so `idx = 0` reads the
last element) and `return flag, addr - flag.offset`. `none` models the
`IndexError` on an empty flags list. -/
def at_ (flags : List Flag) (addr : Nat) : Option (Flag × Int) :=
  let idx := PySem.bisect_right flags ⟨addr, "", 0⟩ 0 flags.length
  match PySem.pyGet flags ((idx : Int) - 1) with
  | some flag => some (flag, (addr : Int) - (flag.offset : Int))
  | none => none

/-- `R2.resolve(addr)`: `flag, offset = self.at(addr); return flag.name, offset`. -/
def resolve (flags : List Flag) (addr : Nat) : Option (String × Int) :=
  match at_ flags addr with
  | some (flag, offset) => some (flag.name, offset)
  | none => none

/-- `R2.refto(addr)`: `[xref for xref in self.xrefs.values() if xref.addr == addr]`. -/
def refto (xrefs : List Xref) (addr : Nat) : List Xref :=
  xrefs.filter (fun xref => xref.addr == addr)

end R2

/-- The three analysis-dependent cached views: `functions`, `flags`, `xrefs`
(each decorated `@cached_property` over `@aaa`). -/
inductive View where
  | functions
  | flags
  | xrefs
  deriving DecidableEq, Repr

/-- Session state relevant to the analysis gate: the `analyzed` flag set in
`__init__`, the number of `"aaa"` commands sent to the engine, and the
memoization state of each `cached_property`. -/
structure R2State where
  analyzed : Bool
  aaaCount : Nat
  cachedViews : List View
  deriving DecidableEq, Repr

/-- State right after `R2.__init__`: `self.analyzed = False`, no cached
views, no analysis command issued yet. -/
def initState : R2State :=
  ⟨false, 0, []⟩

/-- The `aaa` decorator body: `if self.analyzed is False: self._cmd("aaa");
self.analyzed = True`, then the wrapped view computation proceeds. -/
def aaaGate (s : R2State) : R2State :=
  if s.analyzed = false then
    { s with aaaCount := s.aaaCount + 1, analyzed := true }
  else
    s

/-- One attribute access to an analysis-dependent view: `cached_property`
returns the memoized value if present; otherwise it runs the `aaa`-wrapped
computation and memoizes the result. -/
def access (s : R2State) (v : View) : R2State :=
  if v ∈ s.cachedViews then
    s
  else
    let s' := aaaGate s
    { s' with cachedViews := v :: s'.cachedViews }

/-- A whole sequence of view accesses on one session. -/
def accessSeq (s : R2State) (vs : List View) : R2State :=
  vs.foldl access s

/-! ## Helper lemmas -/

/-- In a flags list pairwise non-decreasing by offset, offsets are
monotone in the index. -/
theorem offset_mono (a : List Flag)
    (hs : a.Pairwise fun f g => f.offset ≤ g.offset)
    {i j : Nat} (hij : i ≤ j) (hj : j < a.length) :
    (a.getD i dflt).offset ≤ (a.getD j dflt).offset := by
  have hi : i < a.length := Nat.lt_of_le_of_lt hij hj
  rw [List.getD_eq_getElem a dflt hi, List.getD_eq_getElem a dflt hj]
  rcases Nat.eq_or_lt_of_le hij with rfl | hlt
  · exact Nat.le_refl _
  · exact List.pairwise_iff_getElem.mp hs i j hi hj hlt

/-- In a flags list pairwise strictly increasing by offset, offsets are
strictly monotone in the index. -/
theorem offset_strict_mono (a : List Flag)
    (hs : a.Pairwise fun f g => f.offset < g.offset)
    {i j : Nat} (hij : i < j) (hj : j < a.length) :
    (a.getD i dflt).offset < (a.getD j dflt).offset := by
  have hi : i < a.length := Nat.lt_trans hij hj
  rw [List.getD_eq_getElem a dflt hi, List.getD_eq_getElem a dflt hj]
  exact List.pairwise_iff_getElem.mp hs i j hi hj hij

/-- Specification of `bisect_right` on a list sorted non-decreasing by
offset: the result `r` lies in `[lo, hi]`, every element strictly left of
`r` has offset `≤ x.offset` and every element from `r` on has offset
`> x.offset` (given the corresponding facts outside `[lo, hi)`). -/
theorem bisect_right_spec (a : List Flag) (x : Flag)
    (hs : a.Pairwise fun f g => f.offset ≤ g.offset) :
    ∀ fuel lo hi, hi - lo ≤ fuel → lo ≤ hi → hi ≤ a.length →
      (∀ i, i < lo → (a.getD i dflt).offset ≤ x.offset) →
      (∀ i, hi ≤ i → i < a.length → x.offset < (a.getD i dflt).offset) →
      lo ≤ PySem.bisect_right a x lo hi ∧
      PySem.bisect_right a x lo hi ≤ hi ∧
      (∀ i, i < PySem.bisect_right a x lo hi →
        (a.getD i dflt).offset ≤ x.offset) ∧
      (∀ i, PySem.bisect_right a x lo hi ≤ i → i < a.length →
        x.offset < (a.getD i dflt).offset) := by
  intro fuel
  induction fuel with
  | zero =>
    intro lo hi hfuel hlohi hhi hbelow habove
    have hnlt : ¬ lo < hi := by omega
    rw [PySem.bisect_right, dif_neg hnlt]
    refine ⟨Nat.le_refl _, hlohi, hbelow, ?_⟩
    intro i hi1 hi2
    exact habove i (by omega) hi2
  | succ n ih =>
    intro lo hi hfuel hlohi hhi hbelow habove
    by_cases hlt : lo < hi
    · have hmidlo : lo ≤ (lo + hi) / 2 := by omega
      have hmidhi : (lo + hi) / 2 < hi := by omega
      have hmidlen : (lo + hi) / 2 < a.length := Nat.lt_of_lt_of_le hmidhi hhi
      rw [PySem.bisect_right, dif_pos hlt]
      by_cases hcmp : x.offset < (a.getD ((lo + hi) / 2) dflt).offset
      · rw [if_pos (by simpa [Flag.lt] using hcmp)]
        have hres := ih lo ((lo + hi) / 2) (by omega) hmidlo
          (Nat.le_of_lt hmidlen) hbelow ?_
        · exact ⟨hres.1, Nat.le_trans hres.2.1 (by omega),
            hres.2.2.1, hres.2.2.2⟩
        · intro i hi1 hi2
          exact Nat.lt_of_lt_of_le hcmp (offset_mono a hs hi1 hi2)
      · rw [if_neg (by simpa [Flag.lt] using hcmp)]
        have hres := ih ((lo + hi) / 2 + 1) hi (by omega) (by omega) hhi ?_ habove
        · exact ⟨by omega, hres.2.1, hres.2.2.1, hres.2.2.2⟩
        · intro i hi1
          exact Nat.le_trans
            (offset_mono a hs (by omega : i ≤ (lo + hi) / 2) hmidlen)
            (Nat.le_of_not_lt hcmp)
    · rw [PySem.bisect_right, dif_neg hlt]
      refine ⟨Nat.le_refl _, hlohi, hbelow, ?_⟩
      intro i hi1 hi2
      exact habove i (by omega) hi2

/-- `bisect_right` over the whole list, as `R2.at` calls it. -/
theorem bisect_right_full (a : List Flag) (x : Flag)
    (hs : a.Pairwise fun f g => f.offset ≤ g.offset) :
    PySem.bisect_right a x 0 a.length ≤ a.length ∧
    (∀ i, i < PySem.bisect_right a x 0 a.length →
      (a.getD i dflt).offset ≤ x.offset) ∧
    (∀ i, PySem.bisect_right a x 0 a.length ≤ i → i < a.length →
      x.offset < (a.getD i dflt).offset) := by
  have h := bisect_right_spec a x hs a.length 0 a.length (by omega)
    (Nat.zero_le _) (Nat.le_refl _)
    (fun i hi => absurd hi (Nat.not_lt_zero i))
    (fun i hi1 hi2 => absurd (Nat.lt_of_le_of_lt hi1 hi2) (Nat.lt_irrefl _))
  exact ⟨h.2.1, h.2.2.1, h.2.2.2⟩

/-- Evaluation of `R2.at` when the insertion point is the successor
index `k + 1`: Python's `flags[idx - 1]` reads `flags[k]`. -/
theorem at_idx_succ (flags : List Flag) (addr k : Nat)
    (hk : PySem.bisect_right flags ⟨addr, "", 0⟩ 0 flags.length = k + 1)
    (hlen : k < flags.length) :
    R2.at_ flags addr =
      some (flags.getD k dflt, (addr : Int) - ((flags.getD k dflt).offset : Int)) := by
  have h1 : ¬ (((k + 1 : Nat) : Int) - 1 < 0) := by
    push_cast
    omega
  have h2 : (((k + 1 : Nat) : Int) - 1).toNat = k := by
    push_cast
    omega
  unfold R2.at_ PySem.pyGet
  rw [hk]
  simp only [if_neg h1, h2, List.getElem?_eq_getElem hlen,
    List.getD_eq_getElem flags dflt hlen]

/-- Evaluation of `R2.at` when the insertion point is `0`: Python's
`flags[-1]` wraps around to the last element of a non-empty list. -/
theorem at_idx_zero (flags : List Flag) (addr : Nat)
    (hk : PySem.bisect_right flags ⟨addr, "", 0⟩ 0 flags.length = 0)
    (hne : flags ≠ []) :
    R2.at_ flags addr =
      some (flags.getD (flags.length - 1) dflt,
        (addr : Int) - ((flags.getD (flags.length - 1) dflt).offset : Int)) := by
  have hlen : 0 < flags.length := List.length_pos.mpr hne
  have h1 : ((0 : Nat) : Int) - 1 < 0 := by omega
  have h2 : ¬ (((0 : Nat) : Int) - 1 + (flags.length : Int) < 0) := by omega
  have h3 : (((0 : Nat) : Int) - 1 + (flags.length : Int)).toNat =
      flags.length - 1 := by omega
  have h4 : flags.length - 1 < flags.length := by omega
  unfold R2.at_ PySem.pyGet
  rw [hk]
  simp only [if_pos h1, if_neg h2, h3, List.getElem?_eq_getElem h4,
    List.getD_eq_getElem flags dflt h4]

/-! ## Claim theorems -/

/-- C3: for a non-empty flags list sorted ascending by offset and a query
address equal to the `i`-th flag's offset, `resolve(addr)` returns that
flag's name and residual offset `0`. -/
theorem C3_resolve_at_exact_offset (flags : List Flag) (addr i : Nat)
    (hs : flags.Pairwise fun f g => f.offset < g.offset)
    (hi : i < flags.length)
    (heq : (flags.getD i dflt).offset = addr) :
    R2.resolve flags addr = some ((flags.getD i dflt).name, 0) := by
  have hs' : flags.Pairwise fun f g => f.offset ≤ g.offset :=
    hs.imp fun h => Nat.le_of_lt h
  obtain ⟨hub, hbelow, habove⟩ := bisect_right_full flags ⟨addr, "", 0⟩ hs'
  set r := PySem.bisect_right flags ⟨addr, "", 0⟩ 0 flags.length with hr
  have hir : i < r := by
    by_contra hcon
    have h := habove i (Nat.le_of_not_lt hcon) hi
    simp only at h
    omega
  have h1 : (flags.getD (r - 1) dflt).offset ≤ addr := by
    have h := hbelow (r - 1) (by omega)
    simpa using h
  have h2 : ¬ i < r - 1 := by
    intro hcon
    have h := offset_strict_mono flags hs hcon (by omega)
    omega
  have hreq : r = i + 1 := by omega
  have hat := at_idx_succ flags addr i (hr ▸ hreq) hi
  unfold R2.resolve
  rw [hat, heq]
  simp

/-- C4: for a flags list sorted ascending by offset and a query address
strictly between the adjacent offsets of flags `i` and `i + 1`,
`resolve(addr)` returns the lower flag's name and `addr - lowerOffset`. -/
theorem C4_resolve_between_adjacent (flags : List Flag) (addr i : Nat)
    (hs : flags.Pairwise fun f g => f.offset ≤ g.offset)
    (hi : i + 1 < flags.length)
    (hlow : (flags.getD i dflt).offset < addr)
    (hhigh : addr < (flags.getD (i + 1) dflt).offset) :
    R2.resolve flags addr =
      some ((flags.getD i dflt).name,
        (addr : Int) - ((flags.getD i dflt).offset : Int)) := by
  obtain ⟨hub, hbelow, habove⟩ := bisect_right_full flags ⟨addr, "", 0⟩ hs
  set r := PySem.bisect_right flags ⟨addr, "", 0⟩ 0 flags.length with hr
  have hir : i < r := by
    by_contra hcon
    have h := habove i (Nat.le_of_not_lt hcon) (by omega)
    simp only at h
    omega
  have h2 : ¬ i + 1 < r := by
    intro hcon
    have h := hbelow (i + 1) hcon
    simp only at h
    omega
  have hreq : r = i + 1 := by omega
  have hat := at_idx_succ flags addr i (hr ▸ hreq) (by omega)
  unfold R2.resolve
  rw [hat]

/-- C9: for a non-empty flags list sorted ascending by offset and a query
address strictly below the first flag's offset, `at` raises no error: it
returns the last flag of the list (the one with the greatest offset) and
the negative residual `addr - lastOffset`. -/
theorem C9_resolve_below_first_flag (flags : List Flag) (addr : Nat)
    (hs : flags.Pairwise fun f g => f.offset ≤ g.offset)
    (hne : flags ≠ [])
    (hlow : addr < (flags.getD 0 dflt).offset) :
    R2.at_ flags addr =
      some (flags.getD (flags.length - 1) dflt,
        (addr : Int) - ((flags.getD (flags.length - 1) dflt).offset : Int)) ∧
    (addr : Int) - ((flags.getD (flags.length - 1) dflt).offset : Int) < 0 := by
  have hlen : 0 < flags.length := List.length_pos.mpr hne
  obtain ⟨hub, hbelow, habove⟩ := bisect_right_full flags ⟨addr, "", 0⟩ hs
  set r := PySem.bisect_right flags ⟨addr, "", 0⟩ 0 flags.length with hr
  have hr0 : r = 0 := by
    by_contra hcon
    have h := hbelow 0 (by omega)
    simp only at h
    omega
  have hat := at_idx_zero flags addr (hr ▸ hr0) hne
  refine ⟨hat, ?_⟩
  have hmono := offset_mono flags hs (Nat.zero_le (flags.length - 1))
    (by omega : flags.length - 1 < flags.length)
  omega

/-- Witness for C3 at the spec's example flags `start@0x10`, `mid@0x20`
and query `0x20`. -/
theorem C3_witness :
    (([⟨16, "start", 0⟩, ⟨32, "mid", 0⟩] : List Flag).Pairwise
      fun f g => f.offset < g.offset) ∧
    (1 < ([⟨16, "start", 0⟩, ⟨32, "mid", 0⟩] : List Flag).length) ∧
    R2.resolve [⟨16, "start", 0⟩, ⟨32, "mid", 0⟩] 32 = some ("mid", 0) :=
  ⟨by decide, by decide, by
    simpa using C3_resolve_at_exact_offset
      [⟨16, "start", 0⟩, ⟨32, "mid", 0⟩] 32 1 (by decide) (by decide) (by decide)⟩

/-- Witness for C4 at the spec's example flags `start@0x10`, `mid@0x20`
and query `0x15`. -/
theorem C4_witness :
    (([⟨16, "start", 0⟩, ⟨32, "mid", 0⟩] : List Flag).Pairwise
      fun f g => f.offset ≤ g.offset) ∧
    R2.resolve [⟨16, "start", 0⟩, ⟨32, "mid", 0⟩] 21 = some ("start", 5) :=
  ⟨by decide, by
    simpa using C4_resolve_between_adjacent
      [⟨16, "start", 0⟩, ⟨32, "mid", 0⟩] 21 0 (by decide) (by decide)
      (by decide) (by decide)⟩

/-- Witness for C9 at flags `start@0x10`, `mid@0x20` and query `5`, below
both offsets: the last flag `mid` is returned with residual `-27`. -/
theorem C9_witness :
    (([⟨16, "start", 0⟩, ⟨32, "mid", 0⟩] : List Flag) ≠ []) ∧
    R2.at_ [⟨16, "start", 0⟩, ⟨32, "mid", 0⟩] 5 =
      some (⟨32, "mid", 0⟩, -27) :=
  ⟨by decide, by
    simpa using (C9_resolve_below_first_flag
      [⟨16, "start", 0⟩, ⟨32, "mid", 0⟩] 5 (by decide) (by decide) (by decide)).1⟩

/-- C1: evaluation of the code at an address below every flag's offset.
With a single flag at `0x10` and query address `5`, `resolve` does not
report any error: `bisect_right` returns `0`, Python's `flags[-1]` wraps
to the last flag, and the caller receives `("start", -11)` — an incorrect
flag with a negative residual instead of `NoPrecedingFlag`. -/
theorem C1_below_all_flags_returns_wrong_flag :
    R2.resolve [⟨16, "start", 0⟩] 5 = some ("start", -11) := by
  simp [R2.resolve, R2.at_, PySem.bisect_right, PySem.pyGet, Flag.lt, dflt]

/-- One view access preserves the gate invariant: the analysis command has
run at most once, and not at all while `analyzed` is still unset. -/
theorem access_inv (s : R2State) (v : View)
    (h : s.aaaCount ≤ 1 ∧ (s.analyzed = false → s.aaaCount = 0)) :
    (access s v).aaaCount ≤ 1 ∧
    ((access s v).analyzed = false → (access s v).aaaCount = 0) := by
  by_cases hc : v ∈ s.cachedViews
  · simpa [access, hc] using h
  · by_cases ha : s.analyzed = false
    · have h0 : s.aaaCount = 0 := h.2 ha
      simp [access, aaaGate, hc, ha, h0]
    · have ha' : s.analyzed = true := by
        cases hb : s.analyzed
        · exact absurd hb ha
        · rfl
      simp [access, aaaGate, hc, ha', h.1]

/-- The gate invariant is preserved by any access sequence. -/
theorem accessSeq_inv (vs : List View) :
    ∀ s : R2State,
      s.aaaCount ≤ 1 ∧ (s.analyzed = false → s.aaaCount = 0) →
      (accessSeq s vs).aaaCount ≤ 1 ∧
      ((accessSeq s vs).analyzed = false → (accessSeq s vs).aaaCount = 0) := by
  induction vs with
  | nil =>
    intro s h
    exact h
  | cons v vs ih =>
    intro s h
    simpa [accessSeq] using ih (access s v) (access_inv s v h)

/-- C2: over every sequence of accesses to the analysis-dependent views
(`functions`, `flags`, `xrefs`) on a fresh session, the full-analysis
command `"aaa"` is issued at most once, in any order and number of
accesses; it is never issued while `analyzed` is still unset afterwards. -/
theorem C2_aaa_at_most_once (vs : List View) :
    (accessSeq initState vs).aaaCount ≤ 1 ∧
    ((accessSeq initState vs).analyzed = false →
      (accessSeq initState vs).aaaCount = 0) :=
  accessSeq_inv vs initState ⟨by simp [initState], fun _ => by simp [initState]⟩

/-- C5: evaluation of the flags-view construction at an engine reply that
is not in offset order. The view is built by mapping `Flag(**dic)` over
the reply in the order received, with no sorting step, so the cached list
`[2, 1]` violates the non-decreasing-offset invariant. -/
theorem C5_flags_view_keeps_engine_order :
    R2.flags [⟨2, "b", 0⟩, ⟨1, "a", 0⟩] =
      [⟨2, "b", 0⟩, ⟨1, "a", 0⟩] ∧
    ¬ (R2.flags [⟨2, "b", 0⟩, ⟨1, "a", 0⟩]).Pairwise
      (fun f g => f.offset ≤ g.offset) := by
  constructor
  · rfl
  · decide

/-- C6: `"-rwx"` converts to the union of the read, write and execute
bits; `"---"` converts to no bits; every character outside `{r, w, x}`
contributes no permission bit (the conversion is total, so no string can
make it fail). -/
theorem C6_perm2uc_rwx_union :
    Section.perm2uc ['-', 'r', 'w', 'x'] =
      (UC_PROT_READ ||| UC_PROT_WRITE ||| UC_PROT_EXEC) ∧
    Section.perm2uc ['-', '-', '-'] = UC_PROT_NONE ∧
    ∀ c : Char, c ≠ 'r' → c ≠ 'w' → c ≠ 'x' →
      ∀ pre suf : List Char,
        Section.perm2uc (pre ++ c :: suf) = Section.perm2uc (pre ++ suf) := by
  refine ⟨by decide, by decide, ?_⟩
  intro c h1 h2 h3 pre suf
  unfold Section.perm2uc
  rw [List.foldl_append, List.foldl_append, List.foldl_cons]
  have hc : permDic c = 0 := by
    simp [permDic, h1, h2, h3]
  simp [hc]

/-- Witness for C6's unrecognized-character clause at `c = '-'` inside the
string `"r-wx"`. -/
theorem C6_witness :
    ('-' ≠ 'r') ∧
    Section.perm2uc ['r', '-', 'w', 'x'] = Section.perm2uc ['r', 'w', 'x'] :=
  ⟨by decide,
    C6_perm2uc_rwx_union.2.2 '-' (by decide) (by decide) (by decide)
      ['r'] ['w', 'x']⟩

/-- `perm2uc`'s fold accumulates the arithmetic sum of per-character
values. -/
theorem perm2uc_foldl_sum (s : List Char) :
    ∀ a : Nat,
      s.foldl (fun perm ch => perm + permDic ch) a = a + (s.map permDic).sum := by
  induction s with
  | nil =>
    intro a
    simp
  | cons c cs ih =>
    intro a
    rw [List.foldl_cons, ih (a + permDic c)]
    simp [Nat.add_assoc]

/-- C10: `perm2uc` is the arithmetic sum of per-character values, so a
repeated permission character is counted twice: `"rr"` yields twice the
read bit, not the set union of the read bit with itself. -/
theorem C10_perm2uc_is_sum (s : List Char) :
    Section.perm2uc s = (s.map permDic).sum ∧
    Section.perm2uc ['r', 'r'] = 2 * UC_PROT_READ ∧
    Section.perm2uc ['r', 'r'] ≠ (UC_PROT_READ ||| UC_PROT_READ) := by
  refine ⟨?_, by decide, by decide⟩
  unfold Section.perm2uc UC_PROT_NONE
  simpa using perm2uc_foldl_sum s 0

/-- `R2Data.__init__` keeps exactly the keyword arguments whose key is a
declared field name, in order. -/
theorem R2Data_init_eq_filter {α : Type} (names : List String)
    (kwargs : List (String × α)) :
    R2Data.init names kwargs =
      kwargs.filter fun kv => decide (kv.1 ∈ names) := by
  unfold R2Data.init
  suffices h : ∀ acc : List (String × α),
      kwargs.foldl
        (fun attrs kv => if kv.1 ∈ names then attrs ++ [kv] else attrs) acc =
      acc ++ kwargs.filter (fun kv => decide (kv.1 ∈ names)) by
    simpa using h []
  induction kwargs with
  | nil =>
    intro acc
    simp
  | cons kv kws ih =>
    intro acc
    by_cases h : kv.1 ∈ names
    · simp [h, ih, List.filter_cons]
    · simp [h, ih, List.filter_cons]

/-- C7: construction from a field mapping sets exactly the fields whose
names match the record's declared attribute names; every other field in
the mapping is silently discarded, with no error possible. -/
theorem C7_init_keeps_declared_fields {α : Type} (names : List String)
    (kwargs : List (String × α)) (kv : String × α) :
    kv ∈ R2Data.init names kwargs ↔ kv ∈ kwargs ∧ kv.1 ∈ names := by
  rw [R2Data_init_eq_filter]
  simp [List.mem_filter]

/-- C8: `refto(addr)` returns exactly the cross-references in the cached
view whose destination address equals `addr`, and no others. -/
theorem C8_refto_exactly_destination (xrefs : List Xref) (addr : Nat)
    (x : Xref) :
    x ∈ R2.refto xrefs addr ↔ x ∈ xrefs ∧ x.addr = addr := by
  simp [R2.refto, List.mem_filter]

end R2Py
